import Mathlib

/-!
Verification development for the HarmonyNext utility scripts.

The repository holds two Python scripts:
* `changehmname.py` — batch-renames numbered Markdown notes in the current
  directory based on each file's first non-empty line;
* `markexcel.py` — exports the numbered, lettered Markdown filenames with
  derived titles and GitHub links.

Strings are modelled as `List Char`; the directory is modelled as a list of
files (name plus content lines) in `os.listdir` order.  Character classes
(`\d`, `[a-zA-Z]`, Python `str.strip`) are modelled over ASCII, which covers
every character the scripts treat specially.
-/

/-- ASCII whitespace recognised by Python's `str.strip()`. -/
def isPySpace (c : Char) : Bool :=
  c = ' ' || c = '\t' || c = '\n' || c = '\r' || c = '\x0b' || c = '\x0c'

/-- ASCII decimal digit, the characters matched by `\d` on these inputs. -/
def isDigitChar (c : Char) : Bool := '0' ≤ c && c ≤ '9'

/-- ASCII letter, the character class `[a-zA-Z]`. -/
def isAsciiLetter (c : Char) : Bool := ('a' ≤ c && c ≤ 'z') || ('A' ≤ c && c ≤ 'Z')

/-- The characters removed by `re.sub(r'[\\/:*?"<>|]', '', ...)`. -/
def illegalChar (c : Char) : Bool :=
  c = '\\' || c = '/' || c = ':' || c = '*' || c = '?' || c = '"' || c = '<' || c = '>' || c = '|'

/-- The decimal digit character for `n < 10`. -/
def digitChar (n : Nat) : Char := Char.ofNat (48 + n)

/-- Numeric value of a decimal digit character (`0` on non-digits). -/
def digitVal (c : Char) : Nat :=
  if c = '0' then 0 else if c = '1' then 1 else if c = '2' then 2 else if c = '3' then 3
  else if c = '4' then 4 else if c = '5' then 5 else if c = '6' then 6 else if c = '7' then 7
  else if c = '8' then 8 else if c = '9' then 9 else 0

/-- Fuel-driven digit expansion; with `n ≤ fuel` the fuel never runs out. -/
def natDigitsAux : Nat → Nat → List Char
  | 0, n => [digitChar n]
  | fuel + 1, n =>
    if n < 10 then [digitChar n]
    else natDigitsAux fuel (n / 10) ++ [digitChar (n % 10)]

/-- Decimal digits of `n`, most significant first (as Python's `str(n)` / `{n:d}`). -/
def natDigits (n : Nat) : List Char := natDigitsAux n n

theorem natDigitsAux_congr : ∀ f1 : Nat, ∀ f2 n : Nat, n ≤ f1 → n ≤ f2 →
    natDigitsAux f1 n = natDigitsAux f2 n := by
  intro f1
  induction f1 with
  | zero =>
    intro f2 n h1 _
    interval_cases n
    cases f2 with
    | zero => rfl
    | succ f2 => simp [natDigitsAux]
  | succ f1 ih =>
    intro f2 n h1 h2
    by_cases hn : n < 10
    · cases f2 with
      | zero =>
        interval_cases n
        simp [natDigitsAux]
      | succ f2 => simp [natDigitsAux, hn]
    · cases f2 with
      | zero => omega
      | succ f2 =>
        simp only [natDigitsAux, hn, if_false]
        have hd : n / 10 ≤ f1 := by omega
        have hd2 : n / 10 ≤ f2 := by omega
        rw [ih f2 (n / 10) hd hd2]

/-- The recurrence satisfied by `natDigits`. -/
theorem natDigits_def (n : Nat) :
    natDigits n = if n < 10 then [digitChar n]
      else natDigits (n / 10) ++ [digitChar (n % 10)] := by
  by_cases hn : n < 10
  · unfold natDigits
    cases n with
    | zero => simp [natDigitsAux, hn]
    | succ m => simp [natDigitsAux, hn]
  · unfold natDigits
    have h10 : 10 ≤ n := by omega
    obtain ⟨m, rfl⟩ : ∃ m, n = m + 1 := ⟨n - 1, by omega⟩
    simp only [natDigitsAux, hn, if_false]
    rw [natDigitsAux_congr m ((m + 1) / 10) ((m + 1) / 10) (by omega) (by omega)]

/-- Value of a digit string, as Python's `int(...)` on a string of digits. -/
def parseDigits (l : List Char) : Nat := l.foldl (fun a c => a * 10 + digitVal c) 0

/-- Python's `f"{n:02d}"`: decimal digits of `n`, zero-padded to width at least two. -/
def pad2 (n : Nat) : List Char := if n < 10 then '0' :: natDigits n else natDigits n

/-- The `.md` extension. -/
def mdExt : List Char := ['.', 'm', 'd']

/-- The fallback title returned for files with no non-blank line. -/
def untitled : List Char := "untitled".data

/-- Python's `str.strip()`: drop leading and trailing whitespace. -/
def pyStrip (s : List Char) : List Char :=
  ((s.dropWhile isPySpace).reverse.dropWhile isPySpace).reverse

/-- `changehmname.format_title_to_filename`: strip leading `#` then surrounding
whitespace, replace spaces by hyphens, remove filesystem-illegal characters. -/
def format_title_to_filename (title : List Char) : List Char :=
  let t1 := pyStrip (title.dropWhile (fun c => c = '#'))
  let t2 := t1.map (fun c => if c = ' ' then '-' else c)
  t2.filter (fun c => !illegalChar c)

/-- `changehmname.get_first_non_empty_line`, on the file's list of lines:
return the first line that is non-blank after stripping, stripped;
`"untitled"` if there is none. -/
def get_first_non_empty_line : List (List Char) → List Char
  | [] => untitled
  | l :: rest =>
    let s := pyStrip l
    if s.isEmpty then get_first_non_empty_line rest else s

/-- Index of the last position of `s` at which `p` holds for the remaining
suffix, if any (used to model `rfind`-style searches). -/
def lastIndexWhere (p : List Char → Bool) (s : List Char) : Option Nat :=
  ((List.range s.length).filter (fun i => p (s.drop i))).getLast?

/-- Stem of `os.path.splitext`: everything before the last dot, except that a
name whose characters before the last dot are all dots is kept whole.  The
script only applies it to plain basenames, so path separators are absent. -/
def splitextStem (f : List Char) : List Char :=
  match lastIndexWhere (fun t => decide (t.take 1 = ['.'])) f with
  | none => f
  | some i => if (f.take i).all (fun c => c = '.') then f else f.take i

/-- Python's `s.rsplit('.md', 1)[0]`: everything before the last occurrence of
the substring `.md`, or the whole string when it does not occur. -/
def rsplitMdPre (s : List Char) : List Char :=
  match lastIndexWhere (fun t => decide (t.take 3 = mdExt)) s with
  | none => s
  | some i => s.take i

/-- `changehmname.contains_letters`: whether the stem holds an ASCII letter. -/
def contains_letters (f : List Char) : Bool := (splitextStem f).any isAsciiLetter

/-- `changehmname.extract_numeric_prefix`: the leading run of decimal digits as
a number, `none` when the name does not start with a digit. -/
def extract_numeric_prefix (f : List Char) : Option Nat :=
  let ds := f.takeWhile isDigitChar
  if ds.isEmpty then none else some (parseDigits ds)

/-- Whether `re.match(r'^\d+', f)` succeeds, i.e. the first character is a digit. -/
def startsWithDigit (f : List Char) : Bool :=
  match f with
  | [] => false
  | c :: _ => isDigitChar c

/-- Whether `f.endswith('.md')`. -/
def endsWithMd (f : List Char) : Bool := decide (f.drop (f.length - 3) = mdExt)

/-- The selection made by `changehmname.main`'s list comprehension:
`f.endswith('.md') and re.match(r'^\d+', f)`. -/
def isCandName (f : List Char) : Bool := endsWithMd f && startsWithDigit f

/-- One on-disk file: its basename and its content as a list of lines. -/
structure MFile where
  name : List Char
  lines : List (List Char)
deriving DecidableEq

/-- The working directory, in `os.listdir` order. -/
abbrev FS := List MFile

/-- The names present in the directory. -/
def names (fs : FS) : List (List Char) := fs.map (fun f => f.name)

/-- `os.rename(old, nw)`: any file already called `nw` is replaced; every file
called `old` now answers to `nw`.  Renaming a file to itself is a no-op. -/
def renameFile (fs : FS) (old nw : List Char) : FS :=
  if old = nw then fs
  else (fs.filter (fun f => decide (f.name ≠ nw))).map
    (fun f => if f.name = old then ⟨nw, f.lines⟩ else f)

/-- The `i`-th name the collision loop of `changehmname.main` tries for the
desired name `d`: `d` itself first, then `d` with `_i` spliced in before the
last `.md`. -/
def collideCand (d : List Char) (i : Nat) : List Char :=
  if i = 0 then d else rsplitMdPre d ++ '_' :: ( natDigits i ++ mdExt)

/-- Fuel-driven unfolding of the `while os.path.exists(new_filename)` loop:
return the first candidate, from index `i` on, that is not an existing name. -/
def resolveAux (ns : List (List Char)) (d : List Char) : Nat → Nat → List Char
  | i, 0 => collideCand d i
  | i, fuel + 1 =>
    let c := collideCand d i
    if c ∈ ns then resolveAux ns d (i + 1) fuel else c

/-- The name actually used for a rename with desired target `d` when the
directory holds the names `ns`: the first collision candidate not in `ns`.
`ns.length + 2` rounds of fuel always suffice (`resolve_spec` below). -/
def resolve (ns : List (List Char)) (d : List Char) : List Char :=
  resolveAux ns d 0 (ns.length + 2)

/-- `sorted(..., key=extract_numeric_prefix)`'s ordering.  Every sorted element
starts with a digit, so the key is never `none`; `getD` only totalises. -/
def keyLe (a b : List Char) : Prop :=
  ( extract_numeric_prefix a).getD 0 ≤ ( extract_numeric_prefix b).getD 0

instance : DecidableRel keyLe := fun a b => by unfold keyLe; infer_instance

instance : IsTotal (List Char) keyLe := ⟨fun _ _ => Nat.le_total _ _⟩

instance : IsTrans (List Char) keyLe := ⟨fun _ _ _ h h' => Nat.le_trans h h'⟩

/-- `all_md_files` of `changehmname.main`: listdir entries ending in `.md` and
starting with a digit, in directory order. -/
def all_md_files (fs : FS) : List (List Char) := (names fs).filter isCandName

/-- `max_existing_number` of `changehmname.main`: the largest numeric prefix
among the letter-containing candidates, `0` when there is none. -/
def max_existing_number (fs : FS) : Nat :=
  (all_md_files fs).foldl
    (fun acc f =>
      if contains_letters f then
        match extract_numeric_prefix f with
        | some num => max acc num
        | none => acc
      else acc) 0

/-- `target_files` of `changehmname.main`: the letterless candidates, stably
sorted by numeric prefix (Python's `list.sort` is a stable sort). -/
def target_files (fs : FS) : List (List Char) :=
  List.insertionSort keyLe ((all_md_files fs).filter (fun f => !contains_letters f))

/-- The desired new name `f"{n:02d}-{formatted_title}.md"`. -/
def mkDesired (n : Nat) (stem : List Char) : List Char :=
  pad2 n ++ '-' :: (stem ++ mdExt)

/-- The rename loop of `changehmname.main` over the pending target names:
returns the final directory and the list of performed renames (old, new). -/
def runLoop : FS → Nat → List (List Char) → FS × List (List Char × List Char)
  | fs, _, [] => (fs, [])
  | fs, n, filename :: rest =>
    let ls := ((fs.find? (fun g => decide (g.name = filename))).map MFile.lines).getD []
    let title := get_first_non_empty_line ls
    let desired := mkDesired n (format_title_to_filename title)
    let newName := resolve (names fs) desired
    let next := runLoop (renameFile fs filename newName) (n + 1) rest
    (next.1, (filename, newName) :: next.2)

/-- The directory after one run of `changehmname.main`. -/
def mainFS (fs : FS) : FS :=
  (runLoop fs ( max_existing_number fs + 1) ( target_files fs)).1

/-- The renames performed by one run of `changehmname.main`, in order. -/
def mainTrace (fs : FS) : List (List Char × List Char) :=
  (runLoop fs ( max_existing_number fs + 1) ( target_files fs)).2

/-- `markexcel.GITHUB_PREFIX`. -/
def GITHUB_PREFIX : List Char := "https://github.com/same4869/HarmonyNext-/blob/main/".data

/-- `markexcel.is_target_md_file`: note that `re.search(r'[a-zA-Z]', filename)`
scans the whole filename, extension included. -/
def is_target_md_file (f : List Char) : Bool :=
  endsWithMd f && startsWithDigit f && f.any isAsciiLetter

/-- `re.sub(r'^\d+-', '', f)`: drop a leading digit run followed by a hyphen. -/
def stripNumDash (f : List Char) : List Char :=
  let ds := f.takeWhile isDigitChar
  if ds.isEmpty then f
  else
    match f.drop ds.length with
    | '-' :: rest => rest
    | _ => f

/-- `markexcel.extract_title_without_prefix`. -/
def extract_title_without_prefix (f : List Char) : List Char :=
  rsplitMdPre (stripNumDash f)

/-- The rows `markexcel.main` writes for a directory listing: the header, then
one (title, link) row per selected entry, in directory order. -/
def markexcelRows (entries : List (List Char)) : List (List Char × List Char) :=
  ("Title".data, "GitHub Link".data) ::
    (entries.filter is_target_md_file).map
      (fun f => ( extract_title_without_prefix f, GITHUB_PREFIX ++ f))

theorem digitVal_digitChar : ∀ m : Nat, m < 10 → digitVal (digitChar m) = m := by decide

theorem isDigitChar_digitChar : ∀ m : Nat, m < 10 → isDigitChar (digitChar m) = true := by decide

theorem natDigits_all_digit (n : Nat) : ∀ c ∈ natDigits n, isDigitChar c = true := by
  induction n using Nat.strong_induction_on with
  | _ n ih =>
    rw [natDigits_def]
    by_cases hn : n < 10
    · simp only [hn, if_true, List.mem_singleton]
      rintro c rfl
      exact isDigitChar_digitChar n hn
    · simp only [hn, if_false, List.mem_append, List.mem_singleton]
      rintro c (hc | rfl)
      · exact ih (n / 10) (Nat.div_lt_self (by omega) (by omega)) c hc
      · exact isDigitChar_digitChar (n % 10) (Nat.mod_lt _ (by omega))

theorem parseDigits_go (n : Nat) : ∀ a : Nat,
    (natDigits n).foldl (fun a c => a * 10 + digitVal c) a
      = a * 10 ^ (natDigits n).length + n := by
  induction n using Nat.strong_induction_on with
  | _ n ih =>
    intro a
    rw [natDigits_def]
    by_cases hn : n < 10
    · simp [hn, digitVal_digitChar n hn]
    · have hlt : n / 10 < n := Nat.div_lt_self (by omega) (by omega)
      simp only [hn, if_false, List.foldl_append, List.foldl_cons, List.foldl_nil,
        List.length_append, List.length_cons, List.length_nil]
      rw [ih (n / 10) hlt a, digitVal_digitChar (n % 10) (Nat.mod_lt _ (by omega))]
      rw [pow_succ, ← mul_assoc]
      generalize a * 10 ^ (natDigits (n / 10)).length = B
      omega

theorem parseDigits_natDigits (n : Nat) : parseDigits (natDigits n) = n := by
  unfold parseDigits
  rw [parseDigits_go]
  simp

theorem natDigits_inj {m n : Nat} (h : natDigits m = natDigits n) : m = n := by
  have hm := parseDigits_natDigits m
  have hn := parseDigits_natDigits n
  rw [h, hn] at hm
  omega

theorem natDigits_ne_nil (n : Nat) : natDigits n ≠ [] := by
  rw [natDigits_def]
  by_cases hn : n < 10 <;> simp [hn]

theorem pad2_all_digit (n : Nat) : ∀ c ∈ pad2 n, isDigitChar c = true := by
  unfold pad2
  by_cases hn : n < 10
  · simp only [hn, if_true, List.mem_cons]
    rintro c (rfl | hc)
    · decide
    · exact natDigits_all_digit n c hc
  · simp only [hn, if_false]
    exact natDigits_all_digit n

theorem pad2_ne_nil (n : Nat) : pad2 n ≠ [] := by
  unfold pad2
  by_cases hn : n < 10
  · simp [hn]
  · simp [hn, natDigits_ne_nil]

theorem parseDigits_pad2 (n : Nat) : parseDigits (pad2 n) = n := by
  unfold pad2
  by_cases hn : n < 10
  · simp only [hn, if_true]
    unfold parseDigits
    simp only [List.foldl_cons]
    rw [show (0 : Nat) * 10 + digitVal '0' = 0 by decide, parseDigits_go]
    simp
  · simp only [hn, if_false]
    exact parseDigits_natDigits n

theorem takeWhile_append_of (p : Char → Bool) :
    ∀ xs : List Char, ∀ y : Char, ∀ rest : List Char,
    (∀ x ∈ xs, p x = true) → p y = false →
    (xs ++ y :: rest).takeWhile p = xs := by
  intro xs
  induction xs with
  | nil =>
    intro y rest _ hy
    simp [List.takeWhile_cons, hy]
  | cons x xs ih =>
    intro y rest hall hy
    simp only [List.cons_append, List.takeWhile_cons, hall x (List.mem_cons_self x xs), if_true]
    rw [ih y rest (fun z hz => hall z (List.mem_cons_of_mem x hz)) hy]

theorem extract_prefix_pad2 (n : Nat) (rest : List Char) :
    extract_numeric_prefix (pad2 n ++ '-' :: rest) = some n := by
  unfold extract_numeric_prefix
  rw [takeWhile_append_of isDigitChar (pad2 n) '-' rest (pad2_all_digit n) (by decide)]
  simp only [List.isEmpty_iff]
  rw [if_neg (pad2_ne_nil n), parseDigits_pad2]

theorem rsplitMdPre_append (xs : List Char) : rsplitMdPre (xs ++ mdExt) = xs := by
  have hgl : lastIndexWhere (fun t => decide (t.take 3 = mdExt)) (xs ++ mdExt)
      = some xs.length := by
    unfold lastIndexWhere
    have hlen : (xs ++ mdExt).length = xs.length + 1 + 1 + 1 := by simp [mdExt]
    rw [hlen, List.range_succ, List.range_succ, List.range_succ,
      List.filter_append, List.filter_append, List.filter_append]
    have hp0 : (decide (((xs ++ mdExt).drop xs.length).take 3 = mdExt)) = true := by
      rw [List.drop_left]
      decide
    have hp1 : (decide (((xs ++ mdExt).drop (xs.length + 1)).take 3 = mdExt)) = false := by
      rw [List.drop_append 1]
      decide
    have hp2 : (decide (((xs ++ mdExt).drop (xs.length + 2)).take 3 = mdExt)) = false := by
      rw [List.drop_append 2]
      decide
    simp only [List.filter_cons, List.filter_nil, hp0, hp1, hp2]
    simp [List.getLast?_concat]
  unfold rsplitMdPre
  rw [hgl]
  simp only []
  exact List.take_left xs mdExt

theorem rsplitMdPre_cases (d : List Char) :
    rsplitMdPre d = d ∨ ∃ t, d = rsplitMdPre d ++ '.' :: t := by
  cases hL : lastIndexWhere (fun t => decide (t.take 3 = mdExt)) d with
  | none =>
    left
    unfold rsplitMdPre
    rw [hL]
  | some i =>
    right
    have hmem : i ∈ (List.range d.length).filter
        (fun j => decide ((d.drop j).take 3 = mdExt)) := by
      have := hL
      unfold lastIndexWhere at this
      exact List.mem_of_mem_getLast? this
    have hdrop : (d.drop i).take 3 = mdExt := by
      have := List.of_mem_filter hmem
      simpa using this
    obtain ⟨c, cs, hcs⟩ : ∃ c cs, d.drop i = c :: cs := by
      cases hd : d.drop i with
      | nil => rw [hd] at hdrop; simp [mdExt] at hdrop
      | cons c cs => exact ⟨c, cs, rfl⟩
    have hc : c = '.' := by
      rw [hcs] at hdrop
      simp only [show (3 : Nat) = 2 + 1 from rfl, List.take_succ_cons, mdExt,
        List.cons.injEq] at hdrop
      exact hdrop.1
    have hsplit : rsplitMdPre d = d.take i := by
      unfold rsplitMdPre
      rw [hL]
    refine ⟨cs, ?_⟩
    rw [hsplit, ← hc, ← hcs, List.take_append_drop]

theorem collideCand_zero (d : List Char) : collideCand d 0 = d := rfl

theorem collideCand_pos (d : List Char) (i : Nat) (hi : i ≠ 0) :
    collideCand d i = rsplitMdPre d ++ '_' :: ( natDigits i ++ mdExt) := by
  unfold collideCand
  rw [if_neg hi]

theorem collideCand_inj (d : List Char) : Function.Injective (collideCand d) := by
  intro i j h
  by_cases hi : i = 0 <;> by_cases hj : j = 0
  · omega
  · exfalso
    subst hi
    rw [collideCand_zero, collideCand_pos d j hj] at h
    rcases rsplitMdPre_cases d with hc | ⟨t, ht⟩
    · rw [hc] at h
      have := congrArg List.length h
      simp at this
    · have h2 := List.append_cancel_left (ht.symm.trans h)
      simp at h2
  · exfalso
    subst hj
    rw [collideCand_pos d i hi, collideCand_zero] at h
    rcases rsplitMdPre_cases d with hc | ⟨t, ht⟩
    · rw [hc] at h
      have := congrArg List.length h
      simp at this
    · have h2 := List.append_cancel_left (h.trans ht)
      simp at h2
  · rw [collideCand_pos d i hi, collideCand_pos d j hj] at h
    have h2 := List.append_cancel_left h
    simp only [List.cons.injEq, true_and] at h2
    have hlen : (natDigits i).length = (natDigits j).length := by
      have := congrArg List.length h2
      simp at this
      omega
    exact natDigits_inj (List.append_inj_left h2 hlen)

theorem extract_collideCand (n : Nat) (stem : List Char) (i : Nat) :
    extract_numeric_prefix (collideCand (mkDesired n stem) i) = some n := by
  have hassoc : mkDesired n stem = (pad2 n ++ '-' :: stem) ++ mdExt := by
    unfold mkDesired
    simp
  by_cases hi : i = 0
  · rw [hi, collideCand_zero]
    unfold mkDesired
    exact extract_prefix_pad2 n (stem ++ mdExt)
  · rw [collideCand_pos _ i hi, hassoc, rsplitMdPre_append]
    rw [List.append_assoc, List.cons_append]
    exact extract_prefix_pad2 n (stem ++ '_' :: ( natDigits i ++ mdExt))

theorem exists_cand_not_mem (ns : List (List Char)) (d : List Char) :
    ∃ j, j < ns.length + 2 ∧ collideCand d j ∉ ns := by
  by_contra hcon
  push_neg at hcon
  have hsub : (Finset.range (ns.length + 2)).image (collideCand d) ⊆ ns.toFinset := by
    intro x hx
    simp only [Finset.mem_image, Finset.mem_range] at hx
    obtain ⟨j, hj, rfl⟩ := hx
    exact List.mem_toFinset.mpr (hcon j hj)
  have hcard := Finset.card_le_card hsub
  rw [Finset.card_image_of_injective _ (collideCand_inj d), Finset.card_range] at hcard
  have hle := List.toFinset_card_le ns
  omega

theorem resolveAux_spec (ns : List (List Char)) (d : List Char) :
    ∀ fuel i, (∃ j, j < fuel ∧ collideCand d (i + j) ∉ ns) →
    ∃ j, resolveAux ns d i fuel = collideCand d (i + j) ∧ collideCand d (i + j) ∉ ns ∧
      ∀ j', j' < j → collideCand d (i + j') ∈ ns := by
  intro fuel
  induction fuel with
  | zero =>
    rintro i ⟨j, hj, _⟩
    omega
  | succ fuel ih =>
    rintro i ⟨j, hj, hnm⟩
    by_cases hc : collideCand d i ∈ ns
    · have hj0 : j ≠ 0 := by
        rintro rfl
        rw [Nat.add_zero] at hnm
        exact hnm hc
      obtain ⟨j1, rfl⟩ : ∃ j1, j = j1 + 1 := ⟨j - 1, by omega⟩
      have hex : ∃ j', j' < fuel ∧ collideCand d (i + 1 + j') ∉ ns :=
        ⟨j1, by omega, by rw [show i + 1 + j1 = i + (j1 + 1) by omega]; exact hnm⟩
      obtain ⟨j', heq, hnm', hall⟩ := ih (i + 1) hex
      have hstep : resolveAux ns d i (fuel + 1) = resolveAux ns d (i + 1) fuel := by
        simp [resolveAux, hc]
      refine ⟨j' + 1, ?_, ?_, ?_⟩
      · rw [hstep, heq, show i + (j' + 1) = i + 1 + j' by omega]
      · rw [show i + (j' + 1) = i + 1 + j' by omega]
        exact hnm'
      · intro j'' hj''
        cases j'' with
        | zero => rw [Nat.add_zero]; exact hc
        | succ j'' =>
          rw [show i + (j'' + 1) = i + 1 + j'' by omega]
          exact hall j'' (by omega)
    · refine ⟨0, ?_, ?_, ?_⟩
      · rw [Nat.add_zero]
        simp [resolveAux, hc]
      · rw [Nat.add_zero]
        exact hc
      · omega

theorem resolve_spec (ns : List (List Char)) (d : List Char) :
    ∃ m, resolve ns d = collideCand d m ∧ collideCand d m ∉ ns ∧
      ∀ j, j < m → collideCand d j ∈ ns := by
  obtain ⟨j, hj, hnm⟩ := exists_cand_not_mem ns d
  obtain ⟨m, heq, hnm', hall⟩ :=
    resolveAux_spec ns d (ns.length + 2) 0 ⟨j, hj, by simpa using hnm⟩
  refine ⟨m, by simpa using heq, by simpa using hnm', fun j' hj' => by simpa using hall j' hj'⟩

theorem resolve_not_mem (ns : List (List Char)) (d : List Char) : resolve ns d ∉ ns := by
  obtain ⟨m, heq, hnm, _⟩ := resolve_spec ns d
  rw [heq]
  exact hnm

theorem renameFile_map_lines (fs : FS) (old nw : List Char) (h : nw ∉ names fs) :
    (renameFile fs old nw).map MFile.lines = fs.map MFile.lines := by
  unfold renameFile
  by_cases he : old = nw
  · rw [if_pos he]
  · rw [if_neg he]
    have hfil : fs.filter (fun f => decide (f.name ≠ nw)) = fs := by
      apply List.filter_eq_self.mpr
      intro f hf
      simp only [decide_eq_true_eq, ne_eq]
      intro hfn
      exact h (hfn ▸ List.mem_map_of_mem (fun g => g.name) hf)
    rw [hfil, List.map_map]
    apply List.map_congr_left
    intro f _
    by_cases hname : f.name = old <;> simp [hname]

theorem mem_renameFile (fs : FS) (old nw : List Char) (f : MFile)
    (hf : f ∈ fs) (hold : f.name ≠ old) (h : nw ∉ names fs) :
    f ∈ renameFile fs old nw := by
  unfold renameFile
  by_cases he : old = nw
  · rw [if_pos he]
    exact hf
  · rw [if_neg he]
    have hne : f.name ≠ nw := fun hc => h (hc ▸ List.mem_map_of_mem (fun g => g.name) hf)
    have hfil : f ∈ fs.filter (fun g => decide (g.name ≠ nw)) :=
      List.mem_filter.mpr ⟨hf, by simpa using hne⟩
    exact List.mem_map.mpr ⟨f, hfil, by simp [hold]⟩

theorem mem_names_renameFile (fs : FS) (old nw x : List Char)
    (hx : x ∈ names fs) (hold : x ≠ old) (h : nw ∉ names fs) :
    x ∈ names (renameFile fs old nw) := by
  unfold names at hx ⊢
  obtain ⟨g, hg, rfl⟩ := List.mem_map.mp hx
  exact List.mem_map_of_mem (fun f => f.name) (mem_renameFile fs old nw g hg hold h)

theorem runLoop_map_lines : ∀ ts : List (List Char), ∀ fs : FS, ∀ n : Nat,
    ((runLoop fs n ts).1).map MFile.lines = fs.map MFile.lines := by
  intro ts
  induction ts with
  | nil => intro fs n; rfl
  | cons t ts ih =>
    intro fs n
    simp only [runLoop]
    rw [ih]
    exact renameFile_map_lines fs t _ (resolve_not_mem (names fs) _)

theorem runLoop_trace_fst : ∀ ts : List (List Char), ∀ fs : FS, ∀ n : Nat,
    (runLoop fs n ts).2.map Prod.fst = ts := by
  intro ts
  induction ts with
  | nil => intro fs n; rfl
  | cons t ts ih =>
    intro fs n
    simp only [runLoop, List.map_cons]
    rw [ih]

theorem runLoop_trace_prefixes : ∀ ts : List (List Char), ∀ fs : FS, ∀ n : Nat,
    (runLoop fs n ts).2.map (fun e => extract_numeric_prefix e.2)
      = (List.range ts.length).map (fun i => some (n + i)) := by
  intro ts
  induction ts with
  | nil => intro fs n; rfl
  | cons t ts ih =>
    intro fs n
    simp only [runLoop, List.map_cons, List.length_cons]
    rw [List.range_succ_eq_map, List.map_cons, List.map_map]
    obtain ⟨m, heq, -, -⟩ :=
      resolve_spec (names fs)
        (mkDesired n (format_title_to_filename (get_first_non_empty_line
          (((fs.find? (fun g => decide (g.name = t))).map MFile.lines).getD []))))
    have hhead : extract_numeric_prefix
        (resolve (names fs)
          (mkDesired n (format_title_to_filename (get_first_non_empty_line
            (((fs.find? (fun g => decide (g.name = t))).map MFile.lines).getD [])))))
        = some (n + 0) := by
      rw [heq, extract_collideCand, Nat.add_zero]
    rw [hhead, ih]
    congr 1
    apply List.map_congr_left
    intro i _
    simp only [Function.comp_apply]
    congr 1
    omega

theorem runLoop_preserves : ∀ ts : List (List Char), ∀ fs : FS, ∀ n : Nat, ∀ f : MFile,
    f ∈ fs → contains_letters f.name = true →
    (∀ t ∈ ts, contains_letters t = false) → f ∈ (runLoop fs n ts).1 := by
  intro ts
  induction ts with
  | nil =>
    intro fs n f hf _ _
    exact hf
  | cons t ts ih =>
    intro fs n f hf hl hall
    simp only [runLoop]
    apply ih _ _ f _ hl (fun u hu => hall u (List.mem_cons_of_mem t hu))
    apply mem_renameFile fs t _ f hf _ (resolve_not_mem (names fs) _)
    intro hc
    have := hall t (List.mem_cons_self t ts)
    rw [← hc, hl] at this
    cases this

theorem runLoop_trace_ne : ∀ ts : List (List Char), ∀ fs : FS, ∀ n : Nat,
    ts.Nodup → (∀ t ∈ ts, t ∈ names fs) →
    ∀ e ∈ (runLoop fs n ts).2, e.2 ≠ e.1 := by
  intro ts
  induction ts with
  | nil =>
    intro fs n _ _ e he
    cases he
  | cons t ts ih =>
    intro fs n hnd hsub e he
    simp only [runLoop, List.mem_cons] at he
    have hnewnm : resolve (names fs)
        (mkDesired n (format_title_to_filename (get_first_non_empty_line
          (((fs.find? (fun g => decide (g.name = t))).map MFile.lines).getD []))))
        ∉ names fs := resolve_not_mem (names fs) _
    rcases he with rfl | he
    · intro hc
      have hc2 : resolve (names fs)
          (mkDesired n (format_title_to_filename (get_first_non_empty_line
            (((fs.find? (fun g => decide (g.name = t))).map MFile.lines).getD [])))) = t := hc
      apply hnewnm
      rw [hc2]
      exact hsub t (List.mem_cons_self t ts)
    · apply ih _ (n + 1) (List.Nodup.of_cons hnd) _ e he
      intro u hu
      apply mem_names_renameFile
      · exact hsub u (List.mem_cons_of_mem t hu)
      · exact fun hc => (List.nodup_cons.mp hnd).1 (hc ▸ hu)
      · exact hnewnm

theorem target_files_letterless (fs : FS) :
    ∀ t ∈ target_files fs, contains_letters t = false := by
  intro t ht
  unfold target_files at ht
  have := List.of_mem_filter ((List.mem_insertionSort keyLe).mp ht)
  simpa using this

theorem target_files_subset_names (fs : FS) :
    ∀ t ∈ target_files fs, t ∈ names fs := by
  intro t ht
  unfold target_files at ht
  have h1 := List.mem_filter.mp ((List.mem_insertionSort keyLe).mp ht)
  unfold all_md_files at h1
  exact (List.mem_filter.mp h1.1).1

theorem target_files_nodup (fs : FS) (h : (names fs).Nodup) : (target_files fs).Nodup := by
  unfold target_files
  apply (List.Perm.nodup_iff (List.perm_insertionSort keyLe _)).mpr
  apply List.Nodup.filter
  unfold all_md_files
  exact List.Nodup.filter _ h

theorem endsWithMd_iff (f : List Char) : endsWithMd f = true ↔ ∃ xs, f = xs ++ mdExt := by
  unfold endsWithMd
  rw [decide_eq_true_iff]
  constructor
  · intro h
    refine ⟨f.take (f.length - 3), ?_⟩
    conv_lhs => rw [← List.take_append_drop (f.length - 3) f]
    rw [h]
  · rintro ⟨xs, rfl⟩
    have hlen : (xs ++ mdExt).length - 3 = xs.length := by simp [mdExt]
    rw [hlen, List.drop_left]

theorem endsWithMd_any_letter (f : List Char) (h : endsWithMd f = true) :
    f.any isAsciiLetter = true := by
  obtain ⟨xs, rfl⟩ := (endsWithMd_iff f).mp h
  apply List.any_eq_true.mpr
  exact ⟨'m', by simp [mdExt], by decide⟩

theorem pyStrip_all_space (l : List Char) (h : l.all isPySpace = true) : pyStrip l = [] := by
  unfold pyStrip
  have h1 : l.dropWhile isPySpace = [] :=
    List.dropWhile_eq_nil_iff.mpr (fun x hx => List.all_eq_true.mp h x hx)
  rw [h1]
  rfl

theorem mainFS_keeps_letter_file (fs : FS) (f : MFile) (hf : f ∈ fs)
    (hl : contains_letters f.name = true) : f ∈ mainFS fs := by
  unfold mainFS
  exact runLoop_preserves _ _ _ f hf hl (target_files_letterless fs)

theorem mainTrace_src_letterless (fs : FS) :
    ∀ e ∈ mainTrace fs, contains_letters e.1 = false := by
  intro e he
  have h1 : e.1 ∈ target_files fs := by
    have h := runLoop_trace_fst ( target_files fs) fs ( max_existing_number fs + 1)
    unfold mainTrace at he
    rw [← h]
    exact List.mem_map_of_mem Prod.fst he
  exact target_files_letterless fs e.1 h1

/-- C1: in a rename run, every file whose stem holds an ASCII letter is left
untouched (it survives unchanged and is never a rename source), and every
performed rename assigns a numeric prefix strictly greater than the maximum
prefix among the letter-containing numeric-prefixed candidates at the start. -/
theorem spec_c1 (fs : FS) :
    (∀ f ∈ fs, contains_letters f.name = true →
        f ∈ mainFS fs ∧ ∀ e ∈ mainTrace fs, e.1 ≠ f.name) ∧
    (∀ e ∈ mainTrace fs, ∃ k, extract_numeric_prefix e.2 = some k ∧
        max_existing_number fs < k) := by
  constructor
  · intro f hf hl
    refine ⟨mainFS_keeps_letter_file fs f hf hl, ?_⟩
    intro e he hc
    have h2 := mainTrace_src_letterless fs e he
    rw [hc, hl] at h2
    cases h2
  · intro e he
    have hmem : extract_numeric_prefix e.2
        ∈ (mainTrace fs).map (fun x => extract_numeric_prefix x.2) :=
      List.mem_map_of_mem (fun x => extract_numeric_prefix x.2) he
    unfold mainTrace at hmem
    rw [runLoop_trace_prefixes] at hmem
    simp only [List.mem_map, List.mem_range] at hmem
    obtain ⟨i, hi, heq⟩ := hmem
    exact ⟨ max_existing_number fs + 1 + i, heq.symm, by omega⟩

/-- C1 witness: with letter file 10-Notes.md and target 3.md (first line abc),
the letter file survives and the one rename gets prefix 11 > 10. -/
theorem spec_c1_witness :
    (⟨"10-Notes.md".data, ["x".data]⟩ : MFile)
        ∈ mainFS [⟨"10-Notes.md".data, ["x".data]⟩, ⟨"3.md".data, ["abc".data]⟩] ∧
    (∃ k, extract_numeric_prefix ("3.md".data, "11-abc.md".data).2 = some k ∧
        max_existing_number
          [⟨"10-Notes.md".data, ["x".data]⟩, ⟨"3.md".data, ["abc".data]⟩] < k) := by
  have h := spec_c1 [⟨"10-Notes.md".data, ["x".data]⟩, ⟨"3.md".data, ["abc".data]⟩]
  exact ⟨(h.1 _ (by decide) (by decide)).1, h.2 _ (by decide)⟩

/-- C2 counterexample: with 01-Foo.md and 02-Bar.md present and a third file
3.md whose sanitized stem is Foo, the run produces 03-Foo.md with no suffix,
not the 0X-Foo_1.md the claim asserts (renumbering starts above the letter
files' maximum prefix, so their names cannot collide). -/
theorem spec_c2_cex :
    mainTrace [⟨"01-Foo.md".data, ["Foo".data]⟩, ⟨"02-Bar.md".data, ["Bar".data]⟩,
        ⟨"3.md".data, ["Foo".data]⟩]
      = [("3.md".data, "03-Foo.md".data)] := by decide

/-- C2 amended: when the desired target (ending in .md) already exists, the
rename instead uses the target with a numeric suffix spliced in before the
final .md, starting at 1 and taking the first unused value, so no existing
file is ever overwritten (the run preserves every file's contents); but the
01-Foo.md / 02-Bar.md scenario produces an unsuffixed 03-Foo.md, since the
fresh numbering cannot collide with letter-containing names. -/
theorem spec_c2 (fs : FS) (d : List Char) (hmd : endsWithMd d = true)
    (hmem : d ∈ names fs) :
    rsplitMdPre d ++ mdExt = d ∧
    (∃ m, 1 ≤ m ∧
        resolve (names fs) d = rsplitMdPre d ++ '_' :: ( natDigits m ++ mdExt) ∧
        resolve (names fs) d ∉ names fs ∧
        ∀ k, 1 ≤ k → k < m →
          rsplitMdPre d ++ '_' :: ( natDigits k ++ mdExt) ∈ names fs) ∧
    (mainFS fs).map MFile.lines = fs.map MFile.lines := by
  obtain ⟨xs, rfl⟩ := (endsWithMd_iff d).mp hmd
  refine ⟨by rw [rsplitMdPre_append], ?_, ?_⟩
  · obtain ⟨m, heq, hnm, hall⟩ := resolve_spec (names fs) (xs ++ mdExt)
    have hm : m ≠ 0 := by
      rintro rfl
      rw [collideCand_zero] at hnm
      exact hnm hmem
    refine ⟨m, by omega, ?_, ?_, ?_⟩
    · rw [heq, collideCand_pos _ m hm]
    · rw [heq]
      exact hnm
    · intro k h1 hk
      have hin := hall k hk
      rwa [collideCand_pos _ k (by omega)] at hin
  · unfold mainFS
    exact runLoop_map_lines _ _ _

/-- C2 witness: a directory where the desired target 01-.md of file 1.md does
collide with an existing file; the chosen replacement name is not an existing
name. -/
theorem spec_c2_witness :
    resolve (names [⟨"1.md".data, ["#".data]⟩, ⟨"01-.md".data, ["x".data]⟩]) "01-.md".data
      ∉ names [⟨"1.md".data, ["#".data]⟩, ⟨"01-.md".data, ["x".data]⟩] := by
  obtain ⟨-, ⟨m, -, -, hnm, -⟩, -⟩ :=
    spec_c2 [⟨"1.md".data, ["#".data]⟩, ⟨"01-.md".data, ["x".data]⟩] "01-.md".data
      (by decide) (by decide)
  exact hnm

/-- C3 counterexample: for the single file 01-.md whose first line is the bare
heading marker, the freshly computed target equals the original name, yet the
run does not skip the file: the existence check sees the file itself and the
collision loop renames it to 01-_1.md. -/
theorem spec_c3_cex :
    mkDesired ( max_existing_number [⟨"01-.md".data, ["#".data]⟩] + 1)
        (format_title_to_filename (get_first_non_empty_line ["#".data]))
      = "01-.md".data ∧
    mainTrace [⟨"01-.md".data, ["#".data]⟩]
      = [("01-.md".data, "01-_1.md".data)] := by decide

/-- C3 amended: a processed file never keeps its name. When the computed
target equals the original filename the existence check finds the file itself,
so the collision loop fires and the file is renamed with a numeric suffix;
in every other case the chosen name avoids all existing names, the original
included. -/
theorem spec_c3_amended (fs : FS) (hnd : (names fs).Nodup)
    (e : List Char × List Char) (he : e ∈ mainTrace fs) : e.2 ≠ e.1 := by
  unfold mainTrace at he
  exact runLoop_trace_ne ( target_files fs) fs _ (target_files_nodup fs hnd)
    (target_files_subset_names fs) e he

/-- C3 witness: the rename performed on the 01-.md directory changes the name. -/
theorem spec_c3_witness :
    ("01-.md".data, "01-_1.md".data) ∈ mainTrace [⟨"01-.md".data, ["#".data]⟩] ∧
    ("01-.md".data, "01-_1.md".data).2 ≠ ("01-.md".data, "01-_1.md".data).1 :=
  ⟨by decide, spec_c3_amended [⟨"01-.md".data, ["#".data]⟩] (by decide) _ (by decide)⟩

/-- C4: the sanitizer's output never holds any of the characters backslash,
slash, colon, asterisk, question mark, double quote, less-than, greater-than
or pipe. -/
theorem spec_c4 (t : List Char) :
    (format_title_to_filename t).all (fun c => !illegalChar c) = true := by
  apply List.all_eq_true.mpr
  intro c hc
  simp only [format_title_to_filename] at hc
  exact List.of_mem_filter (p := fun c => !illegalChar c) hc

/-- C5: title extraction returns the first line that is non-blank after
whitespace trimming, trimmed, and the literal untitled when no such line
exists (the model is total, so no error is possible). -/
theorem spec_c5 (ls : List (List Char)) :
    get_first_non_empty_line ls
      = ((ls.find? (fun l => !(pyStrip l).isEmpty)).map pyStrip).getD untitled := by
  induction ls with
  | nil => rfl
  | cons l ls ih =>
    by_cases hp : (pyStrip l).isEmpty
    · rw [List.find?_cons_of_neg _ (by simp [hp])]
      simp only [get_first_non_empty_line]
      rw [if_pos hp]
      exact ih
    · rw [List.find?_cons_of_pos _ (by simp [hp])]
      simp only [get_first_non_empty_line]
      rw [if_neg hp]
      rfl

/-- C6 counterexample: 5.md with all-digit first line 123 is renamed to
01-123.md by the first run — an NN-title.md form whose computed target equals
its name — yet the second run renames it again, to 01-123_1.md. -/
theorem spec_c6_cex :
    mainFS [⟨"5.md".data, ["123".data]⟩] = [⟨"01-123.md".data, ["123".data]⟩] ∧
    mainTrace (mainFS [⟨"5.md".data, ["123".data]⟩])
      = [("01-123.md".data, "01-123_1.md".data)] := by decide

/-- C6 amended: the second run performs no rename on any file whose name after
the first run holds an ASCII letter in its stem (the usual NN-title.md form);
such files are never in the target set.  Files whose stem stays letterless
(all-digit or empty titles) can be renamed again. -/
theorem spec_c6_amended (fs : FS) (f : MFile) (hf : f ∈ mainFS fs)
    (hl : contains_letters f.name = true) :
    f ∈ mainFS (mainFS fs) ∧ ∀ e ∈ mainTrace (mainFS fs), e.1 ≠ f.name := by
  refine ⟨mainFS_keeps_letter_file (mainFS fs) f hf hl, ?_⟩
  intro e he hc
  have h2 := mainTrace_src_letterless (mainFS fs) e he
  rw [hc, hl] at h2
  cases h2

/-- C6 witness: 1.md (first line abc) becomes 01-abc.md, which then survives
the second run untouched. -/
theorem spec_c6_witness :
    (⟨"01-abc.md".data, ["abc".data]⟩ : MFile)
      ∈ mainFS (mainFS [⟨"1.md".data, ["abc".data]⟩]) :=
  (spec_c6_amended [⟨"1.md".data, ["abc".data]⟩] ⟨"01-abc.md".data, ["abc".data]⟩
    (by decide) (by decide)).1

/-- C7 counterexample: 123.md is selected by the export tool even though its
stem 123 holds no letter, because the letter search runs over the whole
filename and the extension supplies the letters m and d. -/
theorem spec_c7_cex :
    is_target_md_file "123.md".data = true ∧ contains_letters "123.md".data = false := by
  decide

/-- C7 amended: the export tool selects exactly the entries that end in .md
and begin with a decimal digit — the letter test is over the full filename,
so the .md suffix always satisfies it — and emits, after the header row, one
row per selected entry pairing the prefix-stripped title with the fixed base
URL concatenated with the filename. -/
theorem spec_c7_amended (entries : List (List Char)) :
    markexcelRows entries
      = ("Title".data, "GitHub Link".data) ::
          (entries.filter isCandName).map
            (fun f => ( extract_title_without_prefix f, GITHUB_PREFIX ++ f)) := by
  unfold markexcelRows
  congr 1
  congr 1
  apply List.filter_congr
  intro f _
  unfold is_target_md_file isCandName
  cases hE : endsWithMd f
  · simp
  · rw [endsWithMd_any_letter f hE]
    simp

/-- C8: when no directory entry both ends in .md and starts with a digit, the
run is a no-op: the directory is unchanged and no rename is performed. -/
theorem spec_c8 (fs : FS) (h : ∀ f ∈ names fs, isCandName f = false) :
    mainFS fs = fs ∧ mainTrace fs = [] := by
  have hmd : all_md_files fs = [] := by
    apply List.filter_eq_nil_iff.mpr
    intro a ha
    simp [h a ha]
  have ht : target_files fs = [] := by
    unfold target_files
    rw [hmd]
    rfl
  unfold mainFS mainTrace
  rw [ht]
  exact ⟨rfl, rfl⟩

/-- C8 witness: a directory with a.txt and notes.md (no digit prefix) is left
exactly as it was. -/
theorem spec_c8_witness :
    mainFS [⟨"a.txt".data, []⟩, ⟨"notes.md".data, ["x".data]⟩]
        = [⟨"a.txt".data, []⟩, ⟨"notes.md".data, ["x".data]⟩] ∧
    mainTrace [⟨"a.txt".data, []⟩, ⟨"notes.md".data, ["x".data]⟩] = [] :=
  spec_c8 [⟨"a.txt".data, []⟩, ⟨"notes.md".data, ["x".data]⟩] (by decide)

/-- C9: the new names of the performed renames carry the numeric prefixes
max+1, max+2, … in processing order — the counter advances by exactly one per
processed file, so the assigned prefixes are pairwise distinct and strictly
increasing — and the processing order is the target list, which is sorted in
ascending order of original numeric prefix. -/
theorem spec_c9 (fs : FS) :
    (mainTrace fs).map (fun e => extract_numeric_prefix e.2)
        = (List.range ( target_files fs).length).map
            (fun i => some ( max_existing_number fs + 1 + i)) ∧
    (mainTrace fs).map Prod.fst = target_files fs ∧
    List.Sorted keyLe ( target_files fs) := by
  refine ⟨?_, ?_, ?_⟩
  · unfold mainTrace
    rw [runLoop_trace_prefixes]
  · unfold mainTrace
    rw [runLoop_trace_fst]
  · unfold target_files
    exact List.sorted_insertionSort keyLe _

/-- C10 counterexample: the input hash-space-hash consists only of hash marks
and whitespace, yet the sanitizer returns a single hash mark, not the empty
string: lstrip only removes the leading hash run, and the inner hash is
neither whitespace nor an illegal character. -/
theorem spec_c10_cex :
    (['#', ' ', '#'].all (fun c => c = '#' || isPySpace c) = true) ∧
    format_title_to_filename ['#', ' ', '#'] = ['#'] := by decide

/-- C10 amended: for every input that is a (possibly empty) leading run of
hash marks followed only by whitespace — the empty string included — the
sanitizer returns the empty string, and the computed target is then the bare
NN-.md with an empty stem. -/
theorem spec_c10_amended (t : List Char) (n : Nat)
    (h : (t.dropWhile (fun c => c = '#')).all isPySpace = true) :
    format_title_to_filename t = [] ∧
    mkDesired n (format_title_to_filename t) = pad2 n ++ '-' :: mdExt := by
  have h0 : format_title_to_filename t = [] := by
    simp only [format_title_to_filename]
    rw [pyStrip_all_space _ h]
    rfl
  refine ⟨h0, ?_⟩
  rw [h0]
  rfl

/-- C10 witness: two hash marks then spaces sanitize to the empty string and
yield the target 03-.md. -/
theorem spec_c10_witness :
    ("##  ".data.dropWhile (fun c => c = '#')).all isPySpace = true ∧
    format_title_to_filename "##  ".data = [] ∧
    mkDesired 3 (format_title_to_filename "##  ".data) = pad2 3 ++ '-' :: mdExt := by
  refine ⟨by decide, ?_, ?_⟩
  · exact (spec_c10_amended "##  ".data 3 (by decide)).1
  · exact (spec_c10_amended "##  ".data 3 (by decide)).2
